import Mathlib

/-!
# Verification of the differentiable k-NN training script (`subsets/knn/run_dknn.py`)

Shallow embedding of the pure computations of `run_dknn.py`:
the exact k-NN classifier (`new_predict` / `majority`), the surrogate loss
(`dknn_loss` and the batch mean taken in `train`), the configuration-time
layer selection (lines 57-62), and the checkpointing behaviour of `test`
and of the epoch loop (lines 195-243).

Real numbers of the script (float tensors) are modelled as rationals;
vectors are lists of rationals; tensors are nested lists.
-/

namespace RunDknn

/-- Squared Euclidean distance between two feature vectors, as computed in
`new_predict`: elementwise difference, square, sum over the feature axis
(lines 173-175 of `run_dknn.py`). -/
def sqDist (q c : List ℚ) : ℚ :=
  (List.zipWith (fun a b => (a - b) ^ 2) q c).sum

/-- The row of squared distances from one query to every candidate
(`norms` in `new_predict`, line 175). -/
def norms (q : List ℚ) (nbrs : List (List ℚ)) : List ℚ :=
  nbrs.map (sqDist q)

/-- Model of `torch.argsort` on one row (line 176): the indices `0..n-1` sorted so that
the corresponding entries of `xs` are ascending, modelled by a stable
insertion sort on the index list. -/
def argsort (xs : List ℚ) : List ℕ :=
  (List.range xs.length).insertionSort (fun i j => xs.getD i 0 ≤ xs.getD j 0)

/-- Python's `max(iterable, key=key)`: the first element of the iterable whose
key is maximal (a later element replaces the current best only on a strictly
greater key).  `none` on an empty iterable (Python raises `ValueError`). -/
def pyMax (key : ℤ → ℕ) : List ℤ → Option ℤ
  | [] => none
  | x :: xs => some (xs.foldl (fun best y => if key best < key y then y else best) x)

/-- Iteration over `set(lst)` in `majority` (line 164): an enumeration of the
distinct elements of `lst`.  CPython's set iteration order is an
implementation artefact of its hash table; it is modelled here by `dedup`,
and the order-independent theorems below hold for any enumeration. -/
def pySet (lst : List ℤ) : List ℤ :=
  lst.dedup

/-- Python source: `majority(lst) = max(set(lst), key=lst.count)` (lines 163-164). -/
def majority (lst : List ℤ) : Option ℤ :=
  pyMax (fun x => lst.count x) (pySet lst)

/-- One query row of `new_predict` (lines 167-179): squared distances to all
candidates, `argsort` ascending, take the labels of the first `k` indices
(`neighbor_labels.take(indices[:, :k])`, flat indexing), majority vote. -/
def new_predict (q : List ℚ) (nbrs : List (List ℚ)) (lbls : List ℤ) (k : ℕ) :
    Option ℤ :=
  majority (((argsort (norms q nbrs)).take k).map (fun i => lbls.getD i 0))

/-- Dot product of two vectors (`(u * v).sum(-1)`). -/
def dot (u v : List ℚ) : ℚ :=
  (List.zipWith (fun a b => a * b) u v).sum

/-- Modelled from the spec: `one_hot` is imported from `subsets.knn.utils`,
which is not under `src/`.  §6 of the spec says integer class labels are
"convertible to one-hot vectors by an external helper"; the standard one-hot
encoding over `n` classes is the indicator vector of the label. -/
def one_hot (n y : ℕ) : List ℚ :=
  (List.range n).map (fun i => if i = y then (1 : ℚ) else 0)

/-- The label-agreement matrix `correct` of `dknn_loss` (lines 81-82):
entry `(q, j)` is the dot product of query `q`'s and candidate `j`'s one-hot
label rows. -/
def correctMat (qoh noh : List (List ℚ)) : List (List ℚ) :=
  qoh.map (fun qr => noh.map (fun nr => dot qr nr))

/-- The loss tensor of `dknn_loss` (lines 83-84): for sample `s` and query
`q`, `-(correct[q] * top_k_ness[s][q]).sum(-1)`; `correct.unsqueeze(0)`
broadcasts the agreement matrix over the sample axis. -/
def dknn_loss (topk : List (List (List ℚ))) (qoh noh : List (List ℚ)) :
    List (List ℚ) :=
  topk.map (fun sm =>
    List.zipWith (fun trow crow =>
      -(List.zipWith (fun a b => a * b) crow trow).sum) sm (correctMat qoh noh))

/-- Model of `torch.mean` of a flat list of scalars. -/
def meanList (l : List ℚ) : ℚ :=
  l.sum / l.length

/-- The scalar optimized by one training step: `losses.mean()` (line 149),
the mean of the loss tensor over all samples and queries. -/
def trainStepLoss (topk : List (List (List ℚ))) (qoh noh : List (List ℚ)) : ℚ :=
  meanList (List.flatten (dknn_loss topk qoh noh))

/-- The entry `top_k_ness[s][q][j]` of the membership tensor. -/
def topkEntry (topk : List (List (List ℚ))) (s q j : ℕ) : ℚ :=
  ((topk.getD s []).getD q []).getD j 0

/-- The relaxation variant selected by `--method` (lines 57-62). -/
inductive Variant : Type
  | subsets : Variant
  | neuralsort : Variant
deriving DecidableEq

/-- The configured dknn layer: variant plus the constructor arguments passed
at lines 58/60 (`k`, `tau`, `num_samples`). -/
structure Layer : Type where
  variant : Variant
  k : ℤ
  tau : ℚ
  numSamples : ℤ
deriving DecidableEq

/-- Modelled from the spec: the constructors of `SubsetsDKNN` and `DKNN` live
in `subsets/knn/dknn_layer.py`, which is not under `src/`; per §7 of the spec
a non-positive `τ` is "fatal — division by zero / undefined relaxation;
rejected at configuration time", so the modelled constructor rejects
`tau ≤ 0`.  The other configuration-time fatal condition of §7, `k` ≥
candidate-set size, cannot be checked by any constructor: the candidate-set
size is not among the arguments passed at lines 58/60 (only `k`, `tau`,
`num_samples`). -/
def layerInit (v : Variant) (k : ℤ) (tau : ℚ) (numSamples : ℤ) :
    Except String Layer :=
  if tau ≤ 0 then Except.error "tau must be positive"
  else Except.ok ⟨v, k, tau, numSamples⟩

/-- Configuration-time layer selection (lines 57-62): dispatch on the
`--method` string, constructing the corresponding layer, and raise
`ValueError` for any other method string. -/
def configureLayer (method : String) (k : ℤ) (tau : ℚ) (numSamples : ℤ) :
    Except String Layer :=
  if method = "subsets" then layerInit Variant.subsets k tau numSamples
  else if method = "neuralsort" then layerInit Variant.neuralsort k tau numSamples
  else Except.error "Method must be subsets or neuralsort"

/-- The built-in default of `--method` (line 29). -/
def defaultMethod : String := "stochastic"

/-- The built-in default of `--tau` (line 27). -/
def defaultTau : ℚ := 16

/-- The mutable evaluation state of the training harness: `best_acc`
(line 105/108) and the contents of the checkpoint file, `none` while no
checkpoint has been written (`P` is the type of network parameters; the
checkpoint stores `net`, `acc` and `epoch`, lines 223-227). -/
structure EvalState (P : Type) : Type where
  bestAcc : ℚ
  chkpt : Option (P × ℚ × ℤ)

/-- The initial state of a fresh (non-resumed) run: `best_acc = 0`, no
checkpoint (lines 107-109, assuming no stale checkpoint file). -/
def initEval (P : Type) : EvalState P :=
  ⟨0, none⟩

/-- State transition of one `test(epoch, val)` call (lines 195-229): the
measured accuracy `acc` of the current parameters `params` is compared with
`best_acc`, and the checkpoint is written and `best_acc` updated exactly
when `total_acc > best_acc and val` (line 221). -/
def testStep {P : Type} (epoch : ℤ) (valFlag : Bool) (acc : ℚ) (params : P)
    (s : EvalState P) : EvalState P :=
  if s.bestAcc < acc ∧ valFlag = true then ⟨acc, some (params, acc, epoch)⟩ else s

/-- One evaluation event: the epoch, the split (`val = true` for the
validation split), the measured accuracy and the parameters evaluated. -/
structure TestEvent (P : Type) : Type where
  epoch : ℤ
  val : Bool
  acc : ℚ
  params : P

/-- A sequence of `test` calls folded over the evaluation state. -/
def runTests {P : Type} (evts : List (TestEvent P)) (s : EvalState P) :
    EvalState P :=
  evts.foldl (fun st e => testStep e.epoch e.val e.acc e.params st) s

/-- One iteration of the epoch loop (lines 232-237): `train(t)` updates the
network parameters, then `test(t, val=True)` evaluates them on the
validation split (accuracy `valAcc` of the new parameters) and possibly
checkpoints them. -/
def epochStep {P : Type} (train : ℤ → P → P) (valAcc : P → ℚ) (t : ℤ)
    (ps : P × EvalState P) : P × EvalState P :=
  let p2 := train t ps.1
  (p2, testStep t true (valAcc p2) p2 ps.2)

/-- The whole epoch loop, folded over the epoch indices. -/
def runEpochs {P : Type} (train : ℤ → P → P) (valAcc : P → ℚ)
    (epochs : List ℤ) (p0 : P) (s0 : EvalState P) : P × EvalState P :=
  epochs.foldl (fun ps t => epochStep train valAcc t ps) (p0, s0)

/-- The sequence of parameter snapshots produced by the epoch loop: the
parameters in force at each validation evaluation. -/
def trainTrace {P : Type} (train : ℤ → P → P) (p0 : P) : List ℤ → List P
  | [] => []
  | t :: ts => train t p0 :: trainTrace train (train t p0) ts

/-- Lines 232-243 of `run_dknn.py` for a fresh run: run the epoch loop from
epoch `0` to `numEpochs`, then reload the parameters stored in the
checkpoint (`torch.load` at line 240 fails if no checkpoint was ever
written, modelled by `none`), and report the final validation and test
accuracies of the reloaded parameters (`test(-1, val=True)` and
`test(-1, val=False)`, lines 242-243). -/
def mainRun {P : Type} (train : ℤ → P → P) (valAcc testAcc : P → ℚ)
    (numEpochs : ℕ) (p0 : P) : Option (ℚ × ℚ) :=
  let r := runEpochs train valAcc ((List.range numEpochs).map (fun i => (i : ℤ)))
    p0 (initEval P)
  match r.2.chkpt with
  | none => none
  | some (pBest, _, _) => some (valAcc pBest, testAcc pBest)

/-! ### Configuration-time validation (claims C5, C6, C7) -/

/-- C5: "For every configuration in which k is greater than or equal to the
candidate-set size, the configuration is rejected as fatal at configuration
time, before any computation runs."  The code has no such check: a
configuration with `k = 200` (≥ the default candidate-set size
`num_train_neighbors = 100`) passes configuration untouched, and
`new_predict` silently truncates the slice `indices[:, :k]` — here `k = 200`
with only 2 candidates still yields a prediction. -/
theorem k_ge_candidates_accepted :
    configureLayer "subsets" 200 16 5 =
      Except.ok ⟨Variant.subsets, 200, 16, 5⟩ ∧
    new_predict [0] [[1], [2]] [5, 7] 200 = some 5 := by
  constructor
  · norm_num [configureLayer, layerInit]
  · norm_num [new_predict, norms, sqDist, argsort, List.range_succ,
      majority, pySet, pyMax, List.dedup]

/-- C6: for every configuration with a non-positive temperature `τ`, the
configuration is rejected with an error at configuration time, whatever the
method string, before any training or relaxation evaluation: an invalid
method raises `ValueError` at line 62, and a valid method reaches the
(spec-modelled) layer constructor, which rejects `tau ≤ 0`. -/
theorem nonpositive_tau_rejected (method : String) (k : ℤ) (tau : ℚ)
    (numSamples : ℤ) (htau : tau ≤ 0) :
    ∃ msg, configureLayer method k tau numSamples = Except.error msg := by
  by_cases h1 : method = "subsets"
  · exact ⟨_, by rw [configureLayer, if_pos h1, layerInit, if_pos htau]⟩
  · by_cases h2 : method = "neuralsort"
    · exact ⟨_, by rw [configureLayer, if_neg h1, if_pos h2, layerInit, if_pos htau]⟩
    · exact ⟨_, by rw [configureLayer, if_neg h1, if_neg h2]⟩

/-- Witness for `nonpositive_tau_rejected` at `method = "subsets"`,
`tau = 0`. -/
theorem nonpositive_tau_rejected_witness :
    (0 : ℚ) ≤ 0 ∧ ∃ msg, configureLayer "subsets" 3 0 5 = Except.error msg :=
  ⟨le_refl 0, nonpositive_tau_rejected "subsets" 3 0 5 (le_refl 0)⟩

/-- C7: with a positive `τ`, configuration succeeds exactly for the two
recognized method strings `"subsets"` (SubsetRelaxation) and `"neuralsort"`
(NeuralSort); every other string — including the built-in default
`"stochastic"` — fails with an error before any training occurs
(lines 29 and 57-62). -/
theorem recognized_methods (method : String) (k : ℤ) (tau : ℚ)
    (numSamples : ℤ) (htau : 0 < tau) :
    ((∃ l, configureLayer method k tau numSamples = Except.ok l) ↔
      method = "subsets" ∨ method = "neuralsort") ∧
    configureLayer defaultMethod k tau numSamples =
      Except.error "Method must be subsets or neuralsort" := by
  have hne : ¬ tau ≤ 0 := not_le.mpr htau
  constructor
  · constructor
    · intro h
      by_contra hm
      push_neg at hm
      obtain ⟨l, hl⟩ := h
      rw [configureLayer, if_neg hm.1, if_neg hm.2] at hl
      exact Except.noConfusion hl
    · intro h
      rcases h with h | h <;>
        simp [configureLayer, layerInit, h, hne]
  · have h1 : defaultMethod ≠ "subsets" := by decide
    have h2 : defaultMethod ≠ "neuralsort" := by decide
    rw [configureLayer, if_neg h1, if_neg h2]

/-- Witness for `recognized_methods` at `tau = 16` (the default), showing in
particular that the default method string is rejected. -/
theorem recognized_methods_witness :
    (0 : ℚ) < 16 ∧
    (((∃ l, configureLayer "neuralsort" 9 16 5 = Except.ok l) ↔
        "neuralsort" = "subsets" ∨ "neuralsort" = "neuralsort") ∧
      configureLayer defaultMethod 9 16 5 =
        Except.error "Method must be subsets or neuralsort") :=
  ⟨by norm_num, recognized_methods "neuralsort" 9 16 5 (by norm_num)⟩

/-! ### The majority vote (claims C1, C3, C4) -/

/-- The fold inside `pyMax` splits its input around the returned element:
everything iterated before the winner has a strictly smaller key (Python's
`max` keeps the earlier element on ties), and nothing beats the winner. -/
lemma pyMax_foldl_spec (key : ℤ → ℕ) :
    ∀ (xs : List ℤ) (x : ℤ),
      ∃ pre post,
        x :: xs = pre ++ (xs.foldl (fun best y => if key best < key y then y else best) x) :: post ∧
        (∀ y ∈ pre, key y < key (xs.foldl (fun best y => if key best < key y then y else best) x)) ∧
        ∀ y ∈ x :: xs, key y ≤ key (xs.foldl (fun best y => if key best < key y then y else best) x)
  | [], x => ⟨[], [], rfl, by simp, by simp⟩
  | y :: ys, x => by
    rcases lt_or_ge (key x) (key y) with hxy | hxy
    · obtain ⟨pre, post, hsplit, hpre, hle⟩ := pyMax_foldl_spec key ys y
      have hstep : (y :: ys).foldl (fun best z => if key best < key z then z else best) x =
          ys.foldl (fun best z => if key best < key z then z else best) y := by
        simp [List.foldl_cons, if_pos hxy]
      rw [hstep]
      refine ⟨x :: pre, post, by rw [List.cons_append, ← hsplit], ?_, ?_⟩
      · intro z hz
        rcases List.mem_cons.mp hz with hz | hz
        · subst hz
          exact lt_of_lt_of_le hxy (hle y (List.mem_cons_self y ys))
        · exact hpre z hz
      · intro z hz
        rcases List.mem_cons.mp hz with hz | hz
        · subst hz
          exact le_of_lt (lt_of_lt_of_le hxy (hle y (List.mem_cons_self y ys)))
        · exact hle z hz
    · obtain ⟨pre, post, hsplit, hpre, hle⟩ := pyMax_foldl_spec key ys x
      have hstep : (y :: ys).foldl (fun best z => if key best < key z then z else best) x =
          ys.foldl (fun best z => if key best < key z then z else best) x := by
        simp [List.foldl_cons, if_neg (not_lt.mpr hxy)]
      rw [hstep]
      set r := ys.foldl (fun best z => if key best < key z then z else best) x with hr
      match pre, hsplit with
      | [], hsplit =>
        have hx : x = r := by simpa using congrArg (fun l => l.headI) hsplit
        refine ⟨[], y :: ys, by simp [← hx], by simp, ?_⟩
        intro z hz
        rcases List.mem_cons.mp hz with hz | hz
        · rw [hz]; exact hle x (List.mem_cons_self x ys)
        · rcases List.mem_cons.mp hz with hz | hz
          · rw [hz, ← hx]; exact hxy
          · exact hle z (List.mem_cons_of_mem x hz)
      | p :: pre2, hsplit =>
        have hp : p = x := by simpa using (congrArg (fun l => l.headI) hsplit).symm
        have hys : ys = pre2 ++ r :: post := by
          have := congrArg List.tail hsplit
          simpa using this
        have hxlt : key x < key r := by
          have := hpre p (List.mem_cons_self p pre2)
          rwa [hp] at this
        refine ⟨x :: y :: pre2, post, ?_, ?_, ?_⟩
        · rw [hys]; simp
        · intro z hz
          rcases List.mem_cons.mp hz with hz | hz
          · subst hz; exact hxlt
          · rcases List.mem_cons.mp hz with hz | hz
            · subst hz; exact lt_of_le_of_lt hxy hxlt
            · exact hpre z (List.mem_cons_of_mem p hz)
        · intro z hz
          have hxle : key x ≤ key r := hle x (List.mem_cons_self x ys)
          rcases List.mem_cons.mp hz with hz | hz
          · subst hz; exact hxle
          · rcases List.mem_cons.mp hz with hz | hz
            · subst hz; exact le_trans hxy hxle
            · exact hle z (List.mem_cons_of_mem x hz)

/-- Applied to a non-empty list, `majority` returns (never raises) a label of maximal
count; ties are broken in favour of the label appearing first in the set
enumeration. -/
lemma majority_spec (lst : List ℤ) (h : lst ≠ []) :
    ∃ r, majority lst = some r ∧ r ∈ lst ∧
      (∀ x ∈ lst, lst.count x ≤ lst.count r) ∧
      ∃ pre post, pySet lst = pre ++ r :: post ∧
        ∀ y ∈ pre, lst.count y < lst.count r := by
  have hset : pySet lst ≠ [] := by
    simpa [pySet, List.dedup_eq_nil] using h
  rcases hd : pySet lst with _ | ⟨x, xs⟩
  · exact absurd hd hset
  · obtain ⟨pre, post, hsplit, hpre, hle⟩ :=
      pyMax_foldl_spec (fun z => lst.count z) xs x
    set r := xs.foldl
      (fun best y => if lst.count best < lst.count y then y else best) x with hr
    refine ⟨r, ?_, ?_, ?_, pre, post, hsplit, hpre⟩
    · rw [majority, hd]; rfl
    · have : r ∈ pySet lst := by
        rw [hd, hsplit]
        exact List.mem_append_right _ (List.mem_cons_self r post)
      exact (List.mem_dedup.mp this)
    · intro z hz
      have : z ∈ pySet lst := List.mem_dedup.mpr hz
      rw [hd] at this
      exact hle z this

/-- C3: for every non-empty list of chosen labels, `majority` returns,
without raising, a label having the maximal number of occurrences in the
list; on a tie it returns the label that comes first in the set enumeration
(every earlier-enumerated label has a strictly smaller count); being a pure
function of the list, it is deterministic. -/
theorem majority_total_max (lst : List ℤ) (h : lst ≠ []) :
    ∃ r, majority lst = some r ∧ r ∈ lst ∧
      (∀ x ∈ lst, lst.count x ≤ lst.count r) ∧
      ∃ pre post, pySet lst = pre ++ r :: post ∧
        ∀ y ∈ pre, lst.count y < lst.count r :=
  majority_spec lst h

/-- Witness for `majority_total_max`: the tied list `[5, 7, 7, 5]`. -/
theorem majority_total_max_witness :
    ([(5 : ℤ), 7, 7, 5] ≠ []) ∧
    ∃ r, majority [(5 : ℤ), 7, 7, 5] = some r ∧ r ∈ [(5 : ℤ), 7, 7, 5] ∧
      (∀ x ∈ [(5 : ℤ), 7, 7, 5],
        List.count x [(5 : ℤ), 7, 7, 5] ≤ List.count r [(5 : ℤ), 7, 7, 5]) ∧
      ∃ pre post, pySet [(5 : ℤ), 7, 7, 5] = pre ++ r :: post ∧
        ∀ y ∈ pre,
          List.count y [(5 : ℤ), 7, 7, 5] < List.count r [(5 : ℤ), 7, 7, 5] :=
  ⟨by decide, majority_total_max [(5 : ℤ), 7, 7, 5] (by decide)⟩

/-- Reading `getD` through `map`, inside the valid range. -/
lemma getD_map_of_lt {α β : Type} (f : α → β) (l : List α) (i : ℕ)
    (h : i < l.length) (d : β) (d' : α) :
    (l.map f).getD i d = f (l.getD i d') := by
  rw [List.getD_eq_getElem?_getD, List.getD_eq_getElem?_getD, List.getElem?_map,
    List.getElem?_eq_getElem h]
  rfl

/-- The list `argsort xs` is a permutation of the index list `0..n-1`. -/
lemma argsort_perm (xs : List ℚ) : (argsort xs).Perm (List.range xs.length) :=
  List.perm_insertionSort _ _

/-- The list `argsort xs` holds the indices in ascending order of the corresponding
entries of `xs`. -/
lemma argsort_sorted (xs : List ℚ) :
    (argsort xs).Sorted (fun i j => xs.getD i 0 ≤ xs.getD j 0) := by
  haveI : IsTotal ℕ (fun i j => xs.getD i 0 ≤ xs.getD j 0) :=
    ⟨fun a b => le_total (xs.getD a 0) (xs.getD b 0)⟩
  haveI : IsTrans ℕ (fun i j => xs.getD i 0 ≤ xs.getD j 0) :=
    ⟨fun a b c hab hbc => le_trans hab hbc⟩
  exact List.sorted_insertionSort _ _

/-- The first `k` positions of `argsort` select `k` distinct valid indices
whose entries are no larger than every unselected entry. -/
lemma argsort_take_spec (xs : List ℚ) (k : ℕ) (hk : k ≤ xs.length) :
    ((argsort xs).take k).length = k ∧
    ((argsort xs).take k).Nodup ∧
    (∀ i ∈ (argsort xs).take k, i < xs.length) ∧
    ∀ i ∈ (argsort xs).take k, ∀ j, j < xs.length → j ∉ (argsort xs).take k →
      xs.getD i 0 ≤ xs.getD j 0 := by
  have hperm := argsort_perm xs
  have hlen : (argsort xs).length = xs.length := by
    rw [hperm.length_eq, List.length_range]
  have hnodup : (argsort xs).Nodup := hperm.nodup_iff.mpr (List.nodup_range _)
  have hmem : ∀ i, i ∈ argsort xs ↔ i < xs.length := by
    intro i
    rw [hperm.mem_iff, List.mem_range]
  refine ⟨?_, ?_, ?_, ?_⟩
  · rw [List.length_take, hlen]
    exact min_eq_left hk
  · exact (List.take_sublist k (argsort xs)).nodup hnodup
  · intro i hi
    exact (hmem i).mp (List.mem_of_mem_take hi)
  · intro i hi j hj hnot
    have hjmem : j ∈ argsort xs := (hmem j).mpr hj
    have hsorted : ((argsort xs).take k ++ (argsort xs).drop k).Pairwise
        (fun i j => xs.getD i 0 ≤ xs.getD j 0) := by
      rw [List.take_append_drop]
      exact argsort_sorted xs
    have hdrop : j ∈ (argsort xs).drop k := by
      rcases List.mem_append.mp (by rwa [List.take_append_drop] : j ∈ (argsort xs).take k ++ (argsort xs).drop k) with h | h
      · exact absurd h hnot
      · exact h
    exact (List.pairwise_append.mp hsorted).2.2 i hi j hdrop

/-- C1: for every query, candidate matrix and label vector with at least `k`
candidates (and a positive configured `k`, cf. §6), `new_predict` returns a
label: the majority label among the labels of `k` candidates at minimal
squared Euclidean distance from the query (the first `k` indices of the
ascending `argsort` of the distance row). -/
theorem new_predict_exact (q : List ℚ) (nbrs : List (List ℚ)) (lbls : List ℤ)
    (k : ℕ) (hk : 0 < k) (hkn : k ≤ nbrs.length) (_hlen : lbls.length = nbrs.length) :
    ∃ sel r,
      sel = (argsort (norms q nbrs)).take k ∧
      new_predict q nbrs lbls k = some r ∧
      sel.length = k ∧ sel.Nodup ∧ (∀ i ∈ sel, i < nbrs.length) ∧
      (∀ i ∈ sel, ∀ j, j < nbrs.length → j ∉ sel →
        sqDist q (nbrs.getD i []) ≤ sqDist q (nbrs.getD j [])) ∧
      r ∈ sel.map (fun i => lbls.getD i 0) ∧
      ∀ x ∈ sel.map (fun i => lbls.getD i 0),
        (sel.map (fun i => lbls.getD i 0)).count x ≤
          (sel.map (fun i => lbls.getD i 0)).count r := by
  have hnlen : (norms q nbrs).length = nbrs.length := List.length_map _ _
  obtain ⟨hl, hnd, hval, hmin⟩ :=
    argsort_take_spec (norms q nbrs) k (by rwa [hnlen])
  have hchosen : ((argsort (norms q nbrs)).take k).map (fun i => lbls.getD i 0) ≠ [] := by
    intro hnil
    have := congrArg List.length hnil
    rw [List.length_map, hl] at this
    simp only [List.length_nil] at this
    omega
  obtain ⟨r, hmaj, hrmem, hcount, _⟩ := majority_spec _ hchosen
  refine ⟨(argsort (norms q nbrs)).take k, r, rfl, hmaj, hl, hnd, ?_, ?_, hrmem, hcount⟩
  · intro i hi
    have := hval i hi
    rwa [hnlen] at this
  · intro i hi j hj hnot
    have h1 : (norms q nbrs).getD i 0 = sqDist q (nbrs.getD i []) := by
      have hi' : i < nbrs.length := by
        have := hval i hi
        rwa [hnlen] at this
      exact getD_map_of_lt (sqDist q) nbrs i hi' 0 []
    have h2 : (norms q nbrs).getD j 0 = sqDist q (nbrs.getD j []) :=
      getD_map_of_lt (sqDist q) nbrs j hj 0 []
    rw [← h1, ← h2]
    exact hmin i hi j (by rwa [hnlen]) hnot

/-- Witness for `new_predict_exact`: one query `[0]` against candidates
`[1], [3], [2]` with labels `5, 6, 7` and `k = 2`. -/
theorem new_predict_exact_witness :
    (0 < 2 ∧ 2 ≤ ([[(1 : ℚ)], [3], [2]] : List (List ℚ)).length ∧
      ([(5 : ℤ), 6, 7].length = ([[(1 : ℚ)], [3], [2]] : List (List ℚ)).length)) ∧
    ∃ sel r,
      sel = (argsort (norms [0] [[(1 : ℚ)], [3], [2]])).take 2 ∧
      new_predict [0] [[(1 : ℚ)], [3], [2]] [5, 6, 7] 2 = some r ∧
      sel.length = 2 ∧ sel.Nodup ∧
      (∀ i ∈ sel, i < ([[(1 : ℚ)], [3], [2]] : List (List ℚ)).length) ∧
      (∀ i ∈ sel, ∀ j, j < ([[(1 : ℚ)], [3], [2]] : List (List ℚ)).length → j ∉ sel →
        sqDist [0] (List.getD [[(1 : ℚ)], [3], [2]] i []) ≤
          sqDist [0] (List.getD [[(1 : ℚ)], [3], [2]] j [])) ∧
      r ∈ sel.map (fun i => List.getD [(5 : ℤ), 6, 7] i 0) ∧
      ∀ x ∈ sel.map (fun i => List.getD [(5 : ℤ), 6, 7] i 0),
        (sel.map (fun i => List.getD [(5 : ℤ), 6, 7] i 0)).count x ≤
          (sel.map (fun i => List.getD [(5 : ℤ), 6, 7] i 0)).count r :=
  ⟨⟨by norm_num, by norm_num, by norm_num⟩,
    new_predict_exact [0] [[(1 : ℚ)], [3], [2]] [5, 6, 7] 2
      (by norm_num) (by norm_num) (by norm_num)⟩

/-- C4: with `N = 5` candidates labelled `[A, A, B, B, B]`, any query whose
two strictly smallest squared distances are to candidates 0 and 1 makes
`new_predict` with `k = 2` choose exactly the labels `[A, A]` — so no tie
can arise in the majority vote — and predict `A`. -/
theorem five_candidates_predict_A (q c0 c1 c2 c3 c4 : List ℚ) (a b : ℤ)
    (h02 : sqDist q c0 < sqDist q c2) (h03 : sqDist q c0 < sqDist q c3)
    (h04 : sqDist q c0 < sqDist q c4) (h12 : sqDist q c1 < sqDist q c2)
    (h13 : sqDist q c1 < sqDist q c3) (h14 : sqDist q c1 < sqDist q c4) :
    ((argsort (norms q [c0, c1, c2, c3, c4])).take 2).map
        (fun i => List.getD [a, a, b, b, b] i 0) = [a, a] ∧
    new_predict q [c0, c1, c2, c3, c4] [a, a, b, b, b] 2 = some a := by
  have hnlen : (norms q [c0, c1, c2, c3, c4]).length = 5 := by
    simp [norms]
  obtain ⟨hl, hnd, hval, hmin⟩ :=
    argsort_take_spec (norms q [c0, c1, c2, c3, c4]) 2 (by rw [hnlen]; norm_num)
  have hgd : ∀ i, i < 5 →
      (norms q [c0, c1, c2, c3, c4]).getD i 0 =
        sqDist q (List.getD [c0, c1, c2, c3, c4] i []) := by
    intro i hi
    exact getD_map_of_lt (sqDist q) [c0, c1, c2, c3, c4] i (by simpa using hi) 0 []
  obtain ⟨u, v, huv⟩ := List.length_eq_two.mp hl
  have hne : u ≠ v := by
    have h := hnd
    rw [huv] at h
    simp only [List.nodup_cons, List.mem_singleton] at h
    exact h.1
  -- every selected index is 0 or 1
  have hsmall : ∀ i ∈ (argsort (norms q [c0, c1, c2, c3, c4])).take 2, i < 2 := by
    intro i hi
    by_contra hge
    push_neg at hge
    have hi5 : i < 5 := by
      have := hval i hi
      rwa [hnlen] at this
    -- at least one of the indices 0, 1 is unselected
    have hout : (0 : ℕ) ∉ (argsort (norms q [c0, c1, c2, c3, c4])).take 2 ∨
        (1 : ℕ) ∉ (argsort (norms q [c0, c1, c2, c3, c4])).take 2 := by
      by_contra hboth
      push_neg at hboth
      obtain ⟨h0, h1⟩ := hboth
      rw [huv] at h0 h1 hi
      simp only [List.mem_cons, List.not_mem_nil, or_false] at h0 h1 hi
      omega
    have hcontr : ∀ j : ℕ, j < 2 →
        j ∉ (argsort (norms q [c0, c1, c2, c3, c4])).take 2 → False := by
      intro j hj2 hjout
      have hle := hmin i hi j (by rw [hnlen]; omega) hjout
      rw [hgd i hi5, hgd j (by omega)] at hle
      interval_cases i <;> interval_cases j <;>
        simp_all [List.getD] <;> linarith
    rcases hout with h | h
    · exact hcontr 0 (by norm_num) h
    · exact hcontr 1 (by norm_num) h
  have hmap : ((argsort (norms q [c0, c1, c2, c3, c4])).take 2).map
      (fun i => List.getD [a, a, b, b, b] i 0) = [a, a] := by
    have hu : u < 2 := hsmall u (by rw [huv]; simp)
    have hv : v < 2 := hsmall v (by rw [huv]; simp)
    rw [huv]
    interval_cases u <;> interval_cases v <;> simp_all
  refine ⟨hmap, ?_⟩
  show majority (((argsort (norms q [c0, c1, c2, c3, c4])).take 2).map
    (fun i => List.getD [a, a, b, b, b] i 0)) = some a
  rw [hmap]
  have hdd : ([a, a] : List ℤ).dedup = [a] := by
    rw [List.dedup_cons_of_mem (by simp)]
    simp
  show pyMax (fun x => List.count x [a, a]) (([a, a] : List ℤ).dedup) = some a
  rw [hdd]
  rfl

/-- Witness for `five_candidates_predict_A`: query `[0]`, candidates
`[0], [1], [2], [3], [4]`, labels `A = 0`, `B = 1`. -/
theorem five_candidates_predict_A_witness :
    (sqDist [0] [0] < sqDist [0] [2] ∧ sqDist [0] [0] < sqDist [0] [3] ∧
      sqDist [0] [0] < sqDist [0] [4] ∧ sqDist [0] [1] < sqDist [0] [2] ∧
      sqDist [0] [1] < sqDist [0] [3] ∧ sqDist [0] [1] < sqDist [0] [4]) ∧
    (((argsort (norms [0] [[0], [1], [2], [3], [4]])).take 2).map
        (fun i => List.getD [(0 : ℤ), 0, 1, 1, 1] i 0) = [0, 0] ∧
      new_predict [0] [[0], [1], [2], [3], [4]] [(0 : ℤ), 0, 1, 1, 1] 2 =
        some 0) :=
  ⟨⟨by norm_num [sqDist], by norm_num [sqDist], by norm_num [sqDist],
    by norm_num [sqDist], by norm_num [sqDist], by norm_num [sqDist]⟩,
    five_candidates_predict_A [0] [0] [1] [2] [3] [4] 0 1
      (by norm_num [sqDist]) (by norm_num [sqDist]) (by norm_num [sqDist])
      (by norm_num [sqDist]) (by norm_num [sqDist]) (by norm_num [sqDist])⟩

/-! ### The surrogate loss (claim C2) -/

/-- Sums over `List.range` as `Finset.range` sums. -/
lemma sum_map_range (f : ℕ → ℚ) (n : ℕ) :
    ((List.range n).map f).sum = ∑ i ∈ Finset.range n, f i := by
  induction n with
  | zero => simp
  | succ m ih =>
      rw [List.range_succ, List.map_append, List.sum_append, Finset.sum_range_succ, ih]
      simp

/-- A list sum as a sum of `getD` values over its index range. -/
lemma sum_eq_sum_getD (l : List ℚ) :
    l.sum = ∑ i ∈ Finset.range l.length, l.getD i 0 := by
  induction l with
  | nil => simp
  | cons x xs ih =>
      rw [List.sum_cons, List.length_cons, Finset.sum_range_succ', ih]
      simp [add_comm]

/-- Reading `getD` through an elementwise product, inside the valid range. -/
lemma getD_zipWith_mul (a c : List ℚ) (j : ℕ) (hja : j < a.length)
    (hjc : j < c.length) :
    (List.zipWith (fun x y => x * y) a c).getD j 0 = a.getD j 0 * c.getD j 0 := by
  rw [List.getD_eq_getElem?_getD, List.getElem?_zipWith',
    List.getElem?_eq_getElem hja, List.getElem?_eq_getElem hjc,
    List.getD_eq_getElem?_getD, List.getD_eq_getElem?_getD,
    List.getElem?_eq_getElem hja, List.getElem?_eq_getElem hjc]
  rfl

/-- Sum of an elementwise product of two rows of equal length `n`. -/
lemma zipWith_mul_sum (a c : List ℚ) (n : ℕ) (ha : a.length = n)
    (hc : c.length = n) :
    (List.zipWith (fun x y => x * y) a c).sum =
      ∑ j ∈ Finset.range n, a.getD j 0 * c.getD j 0 := by
  have hl : (List.zipWith (fun x y => x * y) a c).length = n := by
    rw [List.length_zipWith, ha, hc, min_self]
  rw [sum_eq_sum_getD, hl]
  refine Finset.sum_congr rfl fun j hj => ?_
  rw [Finset.mem_range] at hj
  exact getD_zipWith_mul a c j (by omega) (by omega)

/-- Length and sum of the flattening of a rectangular `S × Q` list of
lists. -/
lemma flatten_rect_spec (L : List (List ℚ)) (Q : ℕ)
    (hrow : ∀ row ∈ L, row.length = Q) :
    (List.flatten L).length = L.length * Q ∧
    (List.flatten L).sum =
      ∑ s ∈ Finset.range L.length, ∑ q ∈ Finset.range Q, (L.getD s []).getD q 0 := by
  induction L with
  | nil => simp
  | cons row L' ih =>
      obtain ⟨ih1, ih2⟩ := ih (fun r hr => hrow r (List.mem_cons_of_mem row hr))
      have hrQ : row.length = Q := hrow row (List.mem_cons_self row L')
      constructor
      · rw [List.flatten_cons, List.length_append, hrQ, ih1, List.length_cons]
        ring
      · rw [List.flatten_cons, List.sum_append, ih2, List.length_cons,
          Finset.sum_range_succ']
        simp only [List.getD_cons_succ, List.getD_cons_zero]
        rw [← hrQ, ← sum_eq_sum_getD]
        exact add_comm _ _

/-- The dot product of two one-hot rows is the label-agreement indicator
(the left label must lie inside the class range). -/
lemma dot_one_hot (n y z : ℕ) (hy : y < n) :
    dot (one_hot n y) (one_hot n z) = if y = z then (1 : ℚ) else 0 := by
  rw [dot, one_hot, one_hot, List.zipWith_map, List.zipWith_same, sum_map_range]
  by_cases hyz : y = z
  · subst hyz
    rw [if_pos rfl]
    have : ∀ i, (if i = y then (1 : ℚ) else 0) * (if i = y then (1 : ℚ) else 0) =
        if i = y then (1 : ℚ) else 0 := by
      intro i
      by_cases h : i = y <;> simp [h]
    simp only [this]
    rw [Finset.sum_ite_eq' (Finset.range n) y (fun _ => (1 : ℚ))]
    simp [hy]
  · rw [if_neg hyz]
    refine Finset.sum_eq_zero fun i _ => ?_
    by_cases h : i = y
    · have : i ≠ z := by omega
      simp [h, this, hyz]
    · simp [h]

/-- Reading `getD` through `zipWith`, inside the valid range. -/
lemma getD_zipWith_of_lt {α β γ : Type} (f : α → β → γ) (a : List α)
    (b : List β) (j : ℕ) (hja : j < a.length) (hjb : j < b.length)
    (d : γ) (da : α) (db : β) :
    (List.zipWith f a b).getD j d = f (a.getD j da) (b.getD j db) := by
  rw [List.getD_eq_getElem?_getD, List.getElem?_zipWith',
    List.getElem?_eq_getElem hja, List.getElem?_eq_getElem hjb,
    List.getD_eq_getElem?_getD, List.getD_eq_getElem?_getD,
    List.getElem?_eq_getElem hja, List.getElem?_eq_getElem hjb]
  rfl

/-- A `getD` read inside the valid range is a member of the list. -/
lemma getD_mem_of_lt {α : Type} (l : List α) (i : ℕ) (h : i < l.length)
    (d : α) : l.getD i d ∈ l := by
  rw [List.getD_eq_getElem?_getD, List.getElem?_eq_getElem h]
  exact List.getElem_mem h

/-- One entry of the loss tensor produced by `dknn_loss` from one-hot label
matrices: minus the membership-weighted agreement mass of the query, the
agreement being the equality indicator of the integer labels. -/
lemma dknn_loss_entry (topk : List (List (List ℚ))) (qy ny : List ℕ)
    (Q N : ℕ) (hqy : qy.length = Q) (hny : ny.length = N)
    (hsm : ∀ sm ∈ topk, sm.length = Q)
    (hrow : ∀ sm ∈ topk, ∀ row ∈ sm, row.length = N)
    (hy10 : ∀ y ∈ qy, y < 10)
    (s q : ℕ) (hs : s < topk.length) (hq : q < Q) :
    ((dknn_loss topk (qy.map (one_hot 10)) (ny.map (one_hot 10))).getD s []).getD q 0 =
      -(∑ j ∈ Finset.range N,
        (if qy.getD q 0 = ny.getD j 0 then (1 : ℚ) else 0) * topkEntry topk s q j) := by
  have hsmem : topk.getD s [] ∈ topk := getD_mem_of_lt topk s hs []
  have hsmQ : (topk.getD s []).length = Q := hsm _ hsmem
  have hqohlen : (qy.map (one_hot 10)).length = Q := by rw [List.length_map, hqy]
  have hnohlen : (ny.map (one_hot 10)).length = N := by rw [List.length_map, hny]
  have hClen : (correctMat (qy.map (one_hot 10)) (ny.map (one_hot 10))).length = Q := by
    rw [correctMat, List.length_map, hqohlen]
  rw [dknn_loss,
    getD_map_of_lt _ topk s hs [] [],
    getD_zipWith_of_lt _ (topk.getD s [])
      (correctMat (qy.map (one_hot 10)) (ny.map (one_hot 10))) q
      (by rw [hsmQ]; exact hq) (by rw [hClen]; exact hq) 0 [] []]
  have htrowN : ((topk.getD s []).getD q []).length = N :=
    hrow _ hsmem _ (getD_mem_of_lt _ q (by rw [hsmQ]; exact hq) [])
  have hCrow : (correctMat (qy.map (one_hot 10)) (ny.map (one_hot 10))).getD q [] =
      (ny.map (one_hot 10)).map (fun nr => dot (one_hot 10 (qy.getD q 0)) nr) := by
    rw [correctMat, getD_map_of_lt _ (qy.map (one_hot 10)) q
      (by rw [hqohlen]; exact hq) [] [],
      getD_map_of_lt (one_hot 10) qy q (by rw [hqy]; exact hq) [] 0]
  rw [hCrow]
  have hCrowlen : ((ny.map (one_hot 10)).map
      (fun nr => dot (one_hot 10 (qy.getD q 0)) nr)).length = N := by
    rw [List.length_map, hnohlen]
  rw [zipWith_mul_sum _ _ N hCrowlen htrowN, neg_inj]
  refine Finset.sum_congr rfl fun j hj => ?_
  rw [Finset.mem_range] at hj
  have h1 : ((ny.map (one_hot 10)).map
      (fun nr => dot (one_hot 10 (qy.getD q 0)) nr)).getD j 0 =
      if qy.getD q 0 = ny.getD j 0 then (1 : ℚ) else 0 := by
    rw [getD_map_of_lt _ (ny.map (one_hot 10)) j (by rw [hnohlen]; exact hj) 0 [],
      getD_map_of_lt (one_hot 10) ny j (by rw [hny]; exact hj) [] 0]
    exact dot_one_hot 10 (qy.getD q 0) (ny.getD j 0)
      (hy10 _ (getD_mem_of_lt qy q (by rw [hqy]; exact hq) 0))
  rw [h1]
  rfl

/-- C2: on one-hot encoded labels, the scalar minimized by a training step —
`losses.mean()` over the whole sample × query loss tensor — equals the mean
over the query batch of the per-query loss
`-Σ_j membership(q, j) · agreement(q, j)`, where `membership` is the
sample-averaged top-k mass of candidate `j` and `agreement` is the 0/1
label-equality indicator obtained as the dot product of the one-hot label
rows. -/
theorem trainStepLoss_spec (S Q N : ℕ) (topk : List (List (List ℚ)))
    (qy ny : List ℕ)
    (hS : topk.length = S) (_hSpos : 0 < S) (_hQpos : 0 < Q)
    (hsm : ∀ sm ∈ topk, sm.length = Q)
    (hrow : ∀ sm ∈ topk, ∀ row ∈ sm, row.length = N)
    (hqy : qy.length = Q) (hny : ny.length = N)
    (hy10 : ∀ y ∈ qy, y < 10) :
    trainStepLoss topk (qy.map (one_hot 10)) (ny.map (one_hot 10)) =
      (∑ q ∈ Finset.range Q,
        -(∑ j ∈ Finset.range N,
          (∑ s ∈ Finset.range S, topkEntry topk s q j) / S *
            (if qy.getD q 0 = ny.getD j 0 then (1 : ℚ) else 0))) / Q := by
  have hLlen : (dknn_loss topk (qy.map (one_hot 10)) (ny.map (one_hot 10))).length = S := by
    rw [dknn_loss, List.length_map, hS]
  have hLrow : ∀ row ∈ dknn_loss topk (qy.map (one_hot 10)) (ny.map (one_hot 10)),
      row.length = Q := by
    intro row hr
    rw [dknn_loss] at hr
    obtain ⟨sm, hsmem, rfl⟩ := List.mem_map.mp hr
    rw [List.length_zipWith, hsm _ hsmem, correctMat, List.length_map,
      List.length_map, hqy, min_self]
  obtain ⟨hflen, hfsum⟩ :=
    flatten_rect_spec (dknn_loss topk (qy.map (one_hot 10)) (ny.map (one_hot 10))) Q hLrow
  have hstep1 : trainStepLoss topk (qy.map (one_hot 10)) (ny.map (one_hot 10)) =
      (∑ s ∈ Finset.range S, ∑ q ∈ Finset.range Q,
        -(∑ j ∈ Finset.range N,
          (if qy.getD q 0 = ny.getD j 0 then (1 : ℚ) else 0) *
            topkEntry topk s q j)) / ((S : ℚ) * Q) := by
    rw [trainStepLoss, meanList, hfsum, hflen, hLlen, Nat.cast_mul]
    congr 1
    refine Finset.sum_congr rfl fun s hs => Finset.sum_congr rfl fun q hq => ?_
    rw [Finset.mem_range] at hs hq
    exact dknn_loss_entry topk qy ny Q N hqy hny hsm hrow hy10 s q
      (by rw [hS]; exact hs) hq
  rw [hstep1]
  have hswap : (∑ s ∈ Finset.range S, ∑ q ∈ Finset.range Q,
      -(∑ j ∈ Finset.range N,
        (if qy.getD q 0 = ny.getD j 0 then (1 : ℚ) else 0) *
          topkEntry topk s q j)) =
      -(∑ q ∈ Finset.range Q, ∑ j ∈ Finset.range N,
        (if qy.getD q 0 = ny.getD j 0 then (1 : ℚ) else 0) *
          ∑ s ∈ Finset.range S, topkEntry topk s q j) := by
    simp only [Finset.sum_neg_distrib]
    rw [Finset.sum_comm, neg_inj]
    refine Finset.sum_congr rfl fun q _ => ?_
    rw [Finset.sum_comm]
    refine Finset.sum_congr rfl fun j _ => ?_
    rw [Finset.mul_sum]
  rw [hswap]
  have hrhs : (∑ q ∈ Finset.range Q,
      -(∑ j ∈ Finset.range N,
        (∑ s ∈ Finset.range S, topkEntry topk s q j) / S *
          (if qy.getD q 0 = ny.getD j 0 then (1 : ℚ) else 0))) =
      -(∑ q ∈ Finset.range Q, ∑ j ∈ Finset.range N,
        (if qy.getD q 0 = ny.getD j 0 then (1 : ℚ) else 0) *
          ∑ s ∈ Finset.range S, topkEntry topk s q j) / S := by
    simp only [Finset.sum_neg_distrib]
    rw [neg_div, neg_inj, Finset.sum_div]
    refine Finset.sum_congr rfl fun q _ => ?_
    rw [Finset.sum_div]
    refine Finset.sum_congr rfl fun j _ => ?_
    rw [div_mul_eq_mul_div, mul_comm]
  rw [hrhs, neg_div, neg_div, neg_div, div_div]

/-- Witness for `trainStepLoss_spec`: two samples, one query, two
candidates, query label `3` agreeing with the first candidate only. -/
theorem trainStepLoss_spec_witness :
    trainStepLoss [[[1, 0]], [[0, 1]]] ([3].map (one_hot 10))
        ([3, 4].map (one_hot 10)) =
      (∑ q ∈ Finset.range 1,
        -(∑ j ∈ Finset.range 2,
          (∑ s ∈ Finset.range 2, topkEntry [[[1, 0]], [[0, 1]]] s q j) / (2 : ℚ) *
            (if List.getD [3] q 0 = List.getD [3, 4] j 0 then (1 : ℚ) else 0))) /
        (1 : ℚ) :=
  trainStepLoss_spec 2 1 2 [[[1, 0]], [[0, 1]]] [3] [3, 4]
    rfl (by norm_num) (by norm_num)
    (by
      intro sm hsm
      simp only [List.mem_cons, List.not_mem_nil, or_false] at hsm
      rcases hsm with rfl | rfl <;> rfl)
    (by
      intro sm hsmm row hrw
      simp only [List.mem_cons, List.not_mem_nil, or_false] at hsmm
      rcases hsmm with rfl | rfl <;>
        (simp only [List.mem_cons, List.not_mem_nil, or_false] at hrw
         rcases hrw with rfl
         rfl))
    rfl rfl
    (by intro y hy; rw [List.mem_singleton] at hy; omega)

/-! ### Checkpointing (claims C9, C10) -/

/-- Folding `test` events preserves the checkpoint invariant: the stored
accuracy equals `best_acc`, `best_acc` only grows and bounds every
validation accuracy seen, and the checkpoint is either untouched or stores
the data of some validation event of the fold. -/
lemma runTests_invariant {P : Type} (evts : List (TestEvent P)) :
    ∀ s : EvalState P,
      (∀ p a ep, s.chkpt = some (p, a, ep) → a = s.bestAcc) →
      (∀ p a ep, (runTests evts s).chkpt = some (p, a, ep) →
        a = (runTests evts s).bestAcc) ∧
      (∀ e ∈ evts, e.val = true → e.acc ≤ (runTests evts s).bestAcc) ∧
      s.bestAcc ≤ (runTests evts s).bestAcc ∧
      ((runTests evts s).chkpt = s.chkpt ∨
        ∃ e ∈ evts, e.val = true ∧
          (runTests evts s).chkpt = some (e.params, e.acc, e.epoch)) := by
  induction evts with
  | nil =>
      intro s hs
      exact ⟨hs, by simp, le_refl _, Or.inl rfl⟩
  | cons e evts' ih =>
      intro s hs
      have hrun : runTests (e :: evts') s =
          runTests evts' (testStep e.epoch e.val e.acc e.params s) := rfl
      by_cases hc : s.bestAcc < e.acc ∧ e.val = true
      · have hs1 : testStep e.epoch e.val e.acc e.params s =
            ⟨e.acc, some (e.params, e.acc, e.epoch)⟩ := by
          rw [testStep, if_pos hc]
        have hinv1 : ∀ p a ep,
            (testStep e.epoch e.val e.acc e.params s).chkpt = some (p, a, ep) →
            a = (testStep e.epoch e.val e.acc e.params s).bestAcc := by
          intro p a ep hca
          rw [hs1] at hca ⊢
          simp only [Option.some.injEq, Prod.mk.injEq] at hca
          exact hca.2.1.symm
        obtain ⟨ih1, ih2, ih3, ih4⟩ := ih (testStep e.epoch e.val e.acc e.params s) hinv1
        rw [hrun]
        refine ⟨ih1, ?_, ?_, ?_⟩
        · intro ev hev hval
          rcases List.mem_cons.mp hev with hev | hev
          · rw [hev]
            have hba : (testStep e.epoch e.val e.acc e.params s).bestAcc = e.acc := by
              rw [hs1]
            exact hba.symm.trans_le ih3
          · exact ih2 ev hev hval
        · refine le_trans (le_of_lt hc.1) ?_
          have hba : (testStep e.epoch e.val e.acc e.params s).bestAcc = e.acc := by
            rw [hs1]
          exact hba.symm.trans_le ih3
        · rcases ih4 with h | ⟨ev, hev, hval, hch⟩
          · right
            refine ⟨e, List.mem_cons_self e evts', hc.2, ?_⟩
            rw [h, hs1]
          · exact Or.inr ⟨ev, List.mem_cons_of_mem e hev, hval, hch⟩
      · have hs1 : testStep e.epoch e.val e.acc e.params s = s := by
          rw [testStep, if_neg hc]
        rw [hrun, hs1]
        obtain ⟨ih1, ih2, ih3, ih4⟩ := ih s hs
        refine ⟨ih1, ?_, ih3, ?_⟩
        · intro ev hev hval
          rcases List.mem_cons.mp hev with hev | hev
          · rw [hev]
            have : ¬ s.bestAcc < e.acc := fun hlt => hc ⟨hlt, by rw [← hev]; exact hval⟩
            exact le_trans (not_lt.mp this) ih3
          · exact ih2 ev hev hval
        · rcases ih4 with h | ⟨ev, hev, hval, hch⟩
          · exact Or.inl h
          · exact Or.inr ⟨ev, List.mem_cons_of_mem e hev, hval, hch⟩

/-- C9: `test` writes the checkpoint only on a validation evaluation that
strictly improves `best_acc`; a test-split evaluation (`val = False`) never
writes the checkpoint and never changes `best_acc`; consequently, over any
sequence of evaluations starting from a fresh state, a written checkpoint
always stores the parameters of a validation event whose accuracy equals
the current `best_acc` and dominates every validation accuracy observed. -/
theorem checkpoint_only_on_val_improvement {P : Type} (e : TestEvent P)
    (s : EvalState P) (evts : List (TestEvent P)) :
    (e.val = false → testStep e.epoch e.val e.acc e.params s = s) ∧
    ((testStep e.epoch e.val e.acc e.params s).chkpt ≠ s.chkpt →
      e.val = true ∧ s.bestAcc < e.acc ∧
      (testStep e.epoch e.val e.acc e.params s).chkpt =
        some (e.params, e.acc, e.epoch)) ∧
    ∀ p a ep, (runTests evts (initEval P)).chkpt = some (p, a, ep) →
      a = (runTests evts (initEval P)).bestAcc ∧
      (∃ ev ∈ evts, ev.val = true ∧ ev.params = p ∧ ev.acc = a ∧ ev.epoch = ep) ∧
      ∀ ev ∈ evts, ev.val = true → ev.acc ≤ a := by
  refine ⟨?_, ?_, ?_⟩
  · intro hval
    rw [testStep, if_neg]
    intro hcond
    rw [hval] at hcond
    exact Bool.false_ne_true hcond.2
  · intro hne
    by_cases hc : s.bestAcc < e.acc ∧ e.val = true
    · refine ⟨hc.2, hc.1, ?_⟩
      rw [testStep, if_pos hc]
    · exact absurd (by rw [testStep, if_neg hc]) hne
  · intro p a ep hch
    obtain ⟨h1, h2, _, h4⟩ := runTests_invariant evts (initEval P)
      (by intro p' a' ep' habs; exact absurd habs (by simp [initEval]))
    have ha : a = (runTests evts (initEval P)).bestAcc := h1 p a ep hch
    refine ⟨ha, ?_, ?_⟩
    · rcases h4 with h | ⟨ev, hev, hval, hchev⟩
      · rw [hch] at h
        exact absurd h.symm (by simp [initEval])
      · rw [hchev] at hch
        simp only [Option.some.injEq, Prod.mk.injEq] at hch
        exact ⟨ev, hev, hval, hch.1, hch.2.1, hch.2.2⟩
    · intro ev hev hval
      rw [ha]
      exact h2 ev hev hval

/-- Witness for `checkpoint_only_on_val_improvement`: a test-split event on
a fresh state, and a fold of two validation events in which only the first
(better) one is checkpointed. -/
theorem checkpoint_only_on_val_improvement_witness :
    (∃ p a ep,
      (runTests [⟨0, true, 1, 7⟩, ⟨1, true, 0, 8⟩] (initEval ℤ)).chkpt =
        some (p, a, ep) ∧
      a = (runTests [⟨0, true, 1, 7⟩, ⟨1, true, 0, 8⟩] (initEval ℤ)).bestAcc ∧
      (∃ ev ∈ [(⟨0, true, 1, 7⟩ : TestEvent ℤ), ⟨1, true, 0, 8⟩],
        ev.val = true ∧ ev.params = p ∧ ev.acc = a ∧ ev.epoch = ep) ∧
      ∀ ev ∈ [(⟨0, true, 1, 7⟩ : TestEvent ℤ), ⟨1, true, 0, 8⟩],
        ev.val = true → ev.acc ≤ a) ∧
    testStep 5 false 1 (7 : ℤ) (initEval ℤ) = initEval ℤ :=
  ⟨⟨7, 1, 0,
    by decide,
    (checkpoint_only_on_val_improvement ⟨5, false, 1, 7⟩ (initEval ℤ)
      [⟨0, true, 1, 7⟩, ⟨1, true, 0, 8⟩]).2.2 7 1 0 (by decide)⟩,
    (checkpoint_only_on_val_improvement ⟨5, false, 1, 7⟩ (initEval ℤ)
      [⟨0, true, 1, 7⟩, ⟨1, true, 0, 8⟩]).1 rfl⟩

/-- The epoch loop is the fold of the checkpointing step over the validation
events generated by training: one event per epoch, evaluating the freshly
trained parameters on the validation split. -/
lemma runEpochs_eq_runTests {P : Type} (train : ℤ → P → P) (valAcc : P → ℚ) :
    ∀ (ts : List ℤ) (p0 : P) (s0 : EvalState P),
      runEpochs train valAcc ts p0 s0 =
        ((trainTrace train p0 ts).getLastD p0,
          runTests ((ts.zip (trainTrace train p0 ts)).map
            (fun tp => ⟨tp.1, true, valAcc tp.2, tp.2⟩)) s0) := by
  intro ts
  induction ts with
  | nil => intro p0 s0; rfl
  | cons t ts' ih =>
      intro p0 s0
      show runEpochs train valAcc ts' (train t p0)
          (testStep t true (valAcc (train t p0)) (train t p0) s0) = _
      rw [ih]
      show _ = ((train t p0 :: trainTrace train (train t p0) ts').getLastD p0, _)
      rw [List.getLastD_cons,
        show trainTrace train p0 (t :: ts') =
          train t p0 :: trainTrace train (train t p0) ts' from rfl,
        List.zip_cons_cons, List.map_cons]
      rfl

/-- Every parameter snapshot of the training trace is paired with its epoch
in the zipped event source. -/
lemma mem_trace_zip {P : Type} (train : ℤ → P → P) :
    ∀ (ts : List ℤ) (p0 : P) (p : P), p ∈ trainTrace train p0 ts →
      ∃ tq, (tq, p) ∈ ts.zip (trainTrace train p0 ts) := by
  intro ts
  induction ts with
  | nil => intro p0 p hp; exact absurd hp (List.not_mem_nil p)
  | cons t ts' ih =>
      intro p0 p hp
      rw [trainTrace] at hp
      rcases List.mem_cons.mp hp with hp | hp
      · exact ⟨t, by rw [trainTrace, List.zip_cons_cons, hp]; exact List.mem_cons_self _ _⟩
      · obtain ⟨tq, htq⟩ := ih (train t p0) p hp
        exact ⟨tq, by rw [trainTrace, List.zip_cons_cons]; exact List.mem_cons_of_mem _ htq⟩

/-- C10: whenever the program reaches its final reporting phase (the
checkpoint exists, otherwise `torch.load` fails), the reported final
validation and test accuracies are those of the parameters reloaded from
the checkpoint — a parameter snapshot of some epoch whose validation
accuracy dominates the validation accuracy of every epoch of the run, not
necessarily the last epoch's parameters. -/
theorem final_test_uses_best_checkpoint {P : Type} (train : ℤ → P → P)
    (valAcc testAcc : P → ℚ) (numEpochs : ℕ) (p0 : P) (v t : ℚ)
    (h : mainRun train valAcc testAcc numEpochs p0 = some (v, t)) :
    ∃ pBest,
      pBest ∈ trainTrace train p0 ((List.range numEpochs).map (fun i => (i : ℤ))) ∧
      v = valAcc pBest ∧ t = testAcc pBest ∧
      ∀ p ∈ trainTrace train p0 ((List.range numEpochs).map (fun i => (i : ℤ))),
        valAcc p ≤ valAcc pBest := by
  set ts : List ℤ := (List.range numEpochs).map (fun i => (i : ℤ)) with hts
  set evts : List (TestEvent P) :=
    (ts.zip (trainTrace train p0 ts)).map
      (fun tp => ⟨tp.1, true, valAcc tp.2, tp.2⟩) with hevts
  have hrun : (runEpochs train valAcc ts p0 (initEval P)).2 =
      runTests evts (initEval P) := by
    rw [runEpochs_eq_runTests]
  have h' : (match (runEpochs train valAcc ts p0 (initEval P)).2.chkpt with
      | none => none
      | some (pBest, _, _) => some (valAcc pBest, testAcc pBest)) =
      some (v, t) := h
  rcases hc : (runEpochs train valAcc ts p0 (initEval P)).2.chkpt with _ | ⟨pB, a, ep⟩
  · rw [hc] at h'
    exact absurd h' (by simp)
  · rw [hc] at h'
    simp only [Option.some.injEq, Prod.mk.injEq] at h'
    obtain ⟨hv, ht⟩ := h'
    rw [hrun] at hc
    obtain ⟨h1, h2, _, h4⟩ := runTests_invariant evts (initEval P)
      (by intro p' a' ep' habs; exact absurd habs (by simp [initEval]))
    have ha : a = (runTests evts (initEval P)).bestAcc := h1 pB a ep hc
    have hpB : pB ∈ trainTrace train p0 ts ∧ a = valAcc pB := by
      rcases h4 with hnone | ⟨ev, hev, _, hchev⟩
      · rw [hc] at hnone
        exact absurd hnone.symm (by simp [initEval])
      · rw [hchev] at hc
        simp only [Option.some.injEq, Prod.mk.injEq] at hc
        obtain ⟨tp, htp, hftp⟩ := List.mem_map.mp hev
        have hp2 : tp.2 ∈ trainTrace train p0 ts := (List.of_mem_zip htp).2
        have hparams : ev.params = tp.2 := by rw [← hftp]
        have hacc : ev.acc = valAcc tp.2 := by rw [← hftp]
        refine ⟨?_, ?_⟩
        · rw [← hc.1, hparams]
          exact hp2
        · rw [← hc.2.1, hacc, ← hparams, hc.1]

    refine ⟨pB, hpB.1, by rw [← hv], by rw [← ht], ?_⟩
    intro p hp
    obtain ⟨tq, htq⟩ := mem_trace_zip train ts p0 p hp
    have hevmem : (⟨tq, true, valAcc p, p⟩ : TestEvent P) ∈ evts := by
      rw [hevts]
      exact List.mem_map.mpr ⟨(tq, p), htq, rfl⟩
    have := h2 _ hevmem rfl
    rw [← ha] at this
    rw [← hpB.2]
    exact this

/-- Witness for `final_test_uses_best_checkpoint`: two epochs over integer
parameters where the first epoch has the better validation accuracy; the
final reported pair is that of the first epoch's parameters. -/
theorem final_test_uses_best_checkpoint_witness :
    mainRun (fun _ p => p + 1) (fun p => if p = 1 then (1 : ℚ) else 0)
        (fun p => if p = 1 then (5 : ℚ) else 6) 2 (0 : ℤ) = some (1, 5) ∧
    ∃ pBest,
      pBest ∈ trainTrace (fun _ p => p + 1) (0 : ℤ)
        ((List.range 2).map (fun i => (i : ℤ))) ∧
      (1 : ℚ) = (if pBest = 1 then (1 : ℚ) else 0) ∧
      (5 : ℚ) = (if pBest = 1 then (5 : ℚ) else 6) ∧
      ∀ p ∈ trainTrace (fun _ p => p + 1) (0 : ℤ)
          ((List.range 2).map (fun i => (i : ℤ))),
        (if p = 1 then (1 : ℚ) else 0) ≤ (if pBest = 1 then (1 : ℚ) else 0) :=
  ⟨by decide,
    final_test_uses_best_checkpoint (fun _ p => p + 1)
      (fun p => if p = 1 then (1 : ℚ) else 0)
      (fun p => if p = 1 then (5 : ℚ) else 6) 2 0 1 5 (by decide)⟩

end RunDknn
